import Mathlib

/-!
Formal model of the temporal-smoothing core of the face-recognition UI:
the sliding-window history buffer (`pushWithLimit`), the three aggregators
(`getSmoothedEmotion`, `getSmoothedGender`, `getSmoothedAge`), the display
label lookup (`translateEmotionName`), and the per-frame update step of the
detection loop (`detectStep`).  JavaScript numbers are modelled as rationals
and JS `Math.round` (round half toward positive infinity) as `jsRound`.
-/

namespace FaceRec

/-- JS `Math.round`: round to nearest integer, halves toward positive infinity. -/
def jsRound (q : ℚ) : Int := ⌊q + 1/2⌋

/-- A value that `map[name] || name` can produce.  The object literal `map` has
`Object.prototype` as its prototype, so a string-keyed read that misses the own
properties continues along the prototype chain: for the built-in property names
it finds a truthy non-string (a function, or `Object.prototype` itself for
`__proto__`), which `||` then returns as-is through the `Record<string, string>`
type assertion.  `inherited k` records that the inherited member at key `k` was
returned. -/
inductive JsValue where
  | str : String → JsValue
  | inherited : String → JsValue
deriving DecidableEq

/-- The own keys of the object-literal table `map`. -/
def knownEmotionLabels : List String :=
  ["neutral", "happy", "sad", "angry", "surprise", "fear", "disgust", "contempt"]

/-- The property names a string-keyed lookup on a plain object literal finds on
`Object.prototype` in a browser environment (the ECMAScript core members plus
the Annex B legacy accessors, all present in web browsers; each is truthy —
eleven are functions and `__proto__` yields `Object.prototype` itself). -/
def objectPrototypeKeys : List String :=
  ["constructor", "hasOwnProperty", "isPrototypeOf", "propertyIsEnumerable",
   "toLocaleString", "toString", "valueOf", "__defineGetter__", "__defineSetter__",
   "__lookupGetter__", "__lookupSetter__", "__proto__"]

/-- Display-label lookup `translateEmotionName`: the object-literal table `map`
followed by `return map[name] || name`.  An own key (all eight values are
non-empty strings, hence truthy) returns its translation; otherwise the property
read walks the prototype chain, so a built-in `Object.prototype` name returns
the truthy inherited member instead of falling through `||`; every other string
reads `undefined` and `||` returns the input unchanged. -/
def translateEmotionName (name : String) : JsValue :=
  if name = "neutral" then .str "平静"
  else if name = "happy" then .str "高兴"
  else if name = "sad" then .str "伤心"
  else if name = "angry" then .str "生气"
  else if name = "surprise" then .str "惊讶"
  else if name = "fear" then .str "恐惧"
  else if name = "disgust" then .str "厌恶"
  else if name = "contempt" then .str "轻蔑"
  else if name ∈ objectPrototypeKeys then .inherited name
  else .str name

/-- `pushWithLimit(arr, item, limit)`: `arr.push(item); if (arr.length > limit) arr.shift();`
modelled functionally (the JS version mutates `arr` in place; `shift` removes the
front element). -/
def pushWithLimit {α : Type} (arr : List α) (item : α) (limit : Int) : List α :=
  let a := arr ++ [item]
  if limit < (a.length : Int) then a.tail else a

/-- `EmotionData` of `types.ts`: `{name: string, score: number}`. -/
structure EmotionData where
  name : String
  score : ℚ
deriving DecidableEq

/-- `GenderData` of `types.ts`: `{gender: string, score: number}`. -/
structure GenderData where
  gender : String
  score : ℚ
deriving DecidableEq

/-- One value of the statistics map: `{count: number, total: number}`. -/
structure Stats where
  count : ℕ
  total : ℚ
deriving DecidableEq

/-- One accumulation step
`counter.set(name, {count: prev.count + 1, total: prev.total + score})` where
`prev = counter.get(name) || {count: 0, total: 0}`.  A JS `Map` keeps the
insertion position of an existing key and appends a new key at the end, which
is exactly what this association-list update does. -/
def updateCounter : List (String × Stats) → String → ℚ → List (String × Stats)
  | [], name, score => [(name, ⟨1, score⟩)]
  | (k, v) :: rest, name, score =>
    if k = name then (k, ⟨v.count + 1, v.total + score⟩) :: rest
    else (k, v) :: updateCounter rest name score

/-- The statistics `Map` built by the `for ... of` accumulation loop shared by
`getSmoothedEmotion` and `getSmoothedGender`. -/
def buildCounter (l : List (String × ℚ)) : List (String × Stats) :=
  l.foldl (fun c p => updateCounter c p.1 p.2) []

/-- `counter.get(k)` (first matching key). -/
def lookupCounter : List (String × Stats) → String → Option Stats
  | [], _ => none
  | (k, v) :: rest, name => if k = name then some v else lookupCounter rest name

/-- The `counter.forEach` selection loop of `getSmoothedEmotion`:
state `(bestName, bestCount, bestAvg)` starting at `(null, -1, -1)`, updated when
`v.count > bestCount || (v.count === bestCount && avg > bestAvg)` with
`avg = v.total / v.count`.  `forEach` iterates in `Map` insertion order. -/
def emotionLoop : List (String × Stats) → Option String × Int × ℚ → Option String × Int × ℚ
  | [], acc => acc
  | (k, v) :: rest, (bn, bc, ba) =>
    if bc < (v.count : Int) ∨ (bc = (v.count : Int) ∧ ba < v.total / (v.count : ℚ)) then
      emotionLoop rest (some k, (v.count : Int), v.total / (v.count : ℚ))
    else
      emotionLoop rest (bn, bc, ba)

/-- The `(e.name, e.score)` stream fed into the counter by `getSmoothedEmotion`. -/
def emotionPairs (h : List EmotionData) : List (String × ℚ) :=
  h.map fun e => (e.name, e.score)

/-- `getSmoothedEmotion`: empty history yields `null`; otherwise run the
accumulation and selection loops and return
`{name: bestName, score: Math.round(bestAvg * 100)}` (the guard in the source is
`bestName != null`, which is the `some` case of the match). -/
def getSmoothedEmotion (h : List EmotionData) : Option (String × Int) :=
  if h.length = 0 then none
  else
    match emotionLoop (buildCounter (emotionPairs h)) (none, -1, -1) with
    | (some n, _, ba) => some (n, jsRound (ba * 100))
    | (none, _, _) => none

/-- The `counter.forEach` selection loop of `getSmoothedGender`:
state `(bestGender, bestCount)` starting at `(null, -1)`, updated when
`v.count > bestCount`. -/
def genderLoop : List (String × Stats) → Option String × Int → Option String × Int
  | [], acc => acc
  | (k, v) :: rest, (bg, bc) =>
    if bc < (v.count : Int) then genderLoop rest (some k, (v.count : Int))
    else genderLoop rest (bg, bc)

/-- The `(g.gender, g.score)` stream fed into the counter by `getSmoothedGender`. -/
def genderPairs (h : List GenderData) : List (String × ℚ) :=
  h.map fun g => (g.gender, g.score)

/-- `getSmoothedGender`: empty history yields `{gender: null, score: null}`;
otherwise the count-only selection loop picks the winner, and
`const stats = bestGender ? counter.get(bestGender) : undefined` is a JS
truthiness test, so an empty-string winning label yields no stats and hence a
`null` score; otherwise `score = Math.round(stats.total / stats.count * 100)`. -/
def getSmoothedGender (h : List GenderData) : Option String × Option Int :=
  if h.length = 0 then (none, none)
  else
    let c := buildCounter (genderPairs h)
    let bg := (genderLoop c (none, -1)).1
    let stats := match bg with
      | some g => if g = "" then none else lookupCounter c g
      | none => none
    (bg, stats.map fun s => jsRound (s.total / (s.count : ℚ) * 100))

/-- `getSmoothedAge`: empty history yields `null`; otherwise
`Math.round((sum / ageHistory.length) * 10) / 10` where
`sum = ageHistory.reduce((a, b) => a + b, 0)`. -/
def getSmoothedAge (h : List ℚ) : Option ℚ :=
  if h.length = 0 then none
  else some ((jsRound (h.foldl (· + ·) 0 / (h.length : ℚ) * 10) : ℚ) / 10)

/-- `HistoryBuffers` of `types.ts`: the three sliding-window buffers. -/
structure HistoryBuffers where
  emotion : List EmotionData
  gender : List GenderData
  age : List ℚ
deriving DecidableEq

/-- `createHistoryBuffers()`: three empty buffers. -/
def createHistoryBuffers : HistoryBuffers := ⟨[], [], []⟩

/-- A sequence of `pushWithLimit` calls starting from an empty buffer: the
buffer state after the detection loop has pushed `items` one frame at a time. -/
def pushSeq {α : Type} (limit : Int) (items : List α) : List α :=
  items.foldl (fun b i => pushWithLimit b i limit) []

/-- One raw emotion candidate of `firstFace.emotion`: `{score?: number, emotion: string}`.
`score` is optional in the upstream typings, hence `Option ℚ`. -/
structure Candidate where
  emotion : String
  score : Option ℚ
deriving DecidableEq

/-- The sort key `a.score ?? 0` used by the comparator and the threshold test. -/
def candKey (c : Candidate) : ℚ := c.score.getD 0

/-- Stable descending insertion for `sortDesc`. -/
def insertDesc (x : Candidate) : List Candidate → List Candidate
  | [] => [x]
  | y :: rest => if candKey y ≤ candKey x then x :: y :: rest else y :: insertDesc x rest

/-- `firstFace.emotion.slice().sort((a, b) => (b.score ?? 0) - (a.score ?? 0))`:
ECMAScript `Array.prototype.sort` is required to be stable, and a stable sort is
uniquely determined by the comparator preorder and the input order, so stable
insertion sort produces the same list. -/
def sortDesc : List Candidate → List Candidate
  | [] => []
  | x :: rest => insertDesc x (sortDesc rest)

/-- `SmoothConfig` of `types.ts`: `{windowSize: number, minConfidence: number}`. -/
structure SmoothConfig where
  windowSize : Int
  minConfidence : ℚ
deriving DecidableEq

/-- The fields of `result.face[0]` read by the detection loop.  `none` models a
missing/ill-typed field: a non-array `emotion`, a falsy `gender` (absent or the
empty string), a non-number `genderScore`, `age`, `distance`, `real` or `live`. -/
structure FaceInput where
  emotionArr : Option (List Candidate)
  gender : Option String
  genderScore : Option ℚ
  age : Option ℚ
  score : Option ℚ
  faceScore : Option ℚ
  distance : Option ℚ
  real : Option ℚ
  live : Option ℚ
deriving DecidableEq

/-- The fields of the `FaceData` display record built by `setFaceData` that are
expressible over rationals (the pose-angle fields involve `Math.PI` and are not
modelled; no claim concerns them). -/
structure FaceData where
  confidence : Int
  faceScore : Int
  age : Option ℚ
  gender : Option String
  genderScore : Option Int
  distance : Option Int
  real : Option Int
  live : Option Int
  emotion : Option (String × Int)
deriving DecidableEq

/-- The emotion block of the detection loop: sort a copy of the candidate list by
descending `score ?? 0`, take the first element, and push `{name: top.emotion,
score: top.score}` when `(top.score ?? 0) >= config.minConfidence`.  The pushed
score is modelled as `candKey top`; the source writes `top.score as number`,
which smuggles `undefined` through the cast when the score is absent — the
claims proved below depend only on whether a push occurs in that edge case, not
on the stored value. -/
def stepEmotion (cfg : SmoothConfig) (f : FaceInput) (buf : List EmotionData) :
    List EmotionData :=
  match f.emotionArr with
  | none => buf
  | some cands =>
    match (sortDesc cands).head? with
    | none => buf
    | some top =>
      if cfg.minConfidence ≤ candKey top then
        pushWithLimit buf ⟨top.emotion, candKey top⟩ cfg.windowSize
      else buf

/-- The gender block of the detection loop:
`if (firstFace.gender && typeof firstFace.genderScore === 'number' &&
firstFace.genderScore >= config.minConfidence)` push `{gender, score}`. -/
def stepGender (cfg : SmoothConfig) (f : FaceInput) (buf : List GenderData) :
    List GenderData :=
  match f.gender, f.genderScore with
  | some g, some s =>
    if cfg.minConfidence ≤ s then pushWithLimit buf ⟨g, s⟩ cfg.windowSize else buf
  | _, _ => buf

/-- The age block of the detection loop: `if (typeof firstFace.age === 'number')`
push the age unconditionally. -/
def stepAge (cfg : SmoothConfig) (f : FaceInput) (buf : List ℚ) : List ℚ :=
  match f.age with
  | some a => pushWithLimit buf a cfg.windowSize
  | none => buf

/-- One iteration of `detectionLoop` on the data path: `none` models a frame
whose result has no detected face (`setFaceData(null)`, buffers untouched);
`some f` models a frame with a primary face, which updates the three history
buffers, recomputes the smoothed values and builds the display record. -/
def detectStep (cfg : SmoothConfig) (res : Option FaceInput) (bufs : HistoryBuffers) :
    HistoryBuffers × Option FaceData :=
  match res with
  | none => (bufs, none)
  | some f =>
    let ebuf := stepEmotion cfg f bufs.emotion
    let gbuf := stepGender cfg f bufs.gender
    let abuf := stepAge cfg f bufs.age
    let sg := getSmoothedGender gbuf
    (⟨ebuf, gbuf, abuf⟩,
      some
        { confidence := jsRound (f.score.getD 0 * 100)
          faceScore := jsRound (f.faceScore.getD 0 * 100)
          age := getSmoothedAge abuf
          gender := sg.1
          genderScore := sg.2
          distance := f.distance.map fun d => jsRound (d * 100)
          real := f.real.map fun r => jsRound (r * 100)
          live := f.live.map fun l => jsRound (l * 100)
          emotion := getSmoothedEmotion ebuf })

/-! Specification-side views of the statistics map: per-label occurrence count,
confidence sum and average over the raw pair stream, and the list of distinct
labels in order of first occurrence. -/

/-- Number of occurrences of label `k` in the pair stream. -/
def labelCount (k : String) (l : List (String × ℚ)) : ℕ :=
  (l.filter fun p => decide (p.1 = k)).length

/-- Sum of the confidences recorded for label `k` in the pair stream. -/
def labelTotal (k : String) (l : List (String × ℚ)) : ℚ :=
  ((l.filter fun p => decide (p.1 = k)).map Prod.snd).sum

/-- Average confidence of label `k` in the pair stream. -/
def labelAvg (k : String) (l : List (String × ℚ)) : ℚ :=
  labelTotal k l / (labelCount k l : ℚ)

/-- Arithmetic mean of a list of rationals (specification-side notion). -/
def meanQ (l : List ℚ) : ℚ := l.sum / (l.length : ℚ)

/-- Distinct elements in order of first occurrence, skipping those in `seen`. -/
def keepFirstAux (seen : List String) : List String → List String
  | [] => []
  | a :: l => if a ∈ seen then keepFirstAux seen l else a :: keepFirstAux (a :: seen) l

/-- Distinct elements of a list in order of first occurrence. -/
def keepFirst (l : List String) : List String := keepFirstAux [] l

/-- The update condition of the `getSmoothedEmotion` selection loop: the current
entry strictly beats the best-so-far `(bestCount, bestAvg)` lexicographically
(count first, then average). -/
def accLt (bc : Int) (ba : ℚ) (v : Stats) : Prop :=
  bc < (v.count : Int) ∨ (bc = (v.count : Int) ∧ ba < v.total / (v.count : ℚ))

/-- Strict count-then-average lexicographic comparison of two counter entries. -/
def statLt (u v : Stats) : Prop :=
  u.count < v.count ∨ (u.count = v.count ∧ u.total / (u.count : ℚ) < v.total / (v.count : ℚ))

/-- Non-strict count-then-average lexicographic comparison of two counter entries. -/
def statLe (u v : Stats) : Prop :=
  u.count < v.count ∨ (u.count = v.count ∧ u.total / (u.count : ℚ) ≤ v.total / (v.count : ℚ))

lemma keepFirstAux_congr : ∀ (l s₁ s₂ : List String), (∀ a, a ∈ s₁ ↔ a ∈ s₂) →
    keepFirstAux s₁ l = keepFirstAux s₂ l := by
  intro l
  induction l with
  | nil => intro s₁ s₂ _; rfl
  | cons a l ih =>
    intro s₁ s₂ hmem
    simp only [keepFirstAux]
    by_cases ha : a ∈ s₁
    · rw [if_pos ha, if_pos ((hmem a).mp ha), ih s₁ s₂ hmem]
    · rw [if_neg ha, if_neg (fun hc => ha ((hmem a).mpr hc)), ih (a :: s₁) (a :: s₂)]
      intro b
      simp only [List.mem_cons, hmem b]

lemma mem_keepFirstAux : ∀ (l seen : List String) (a : String),
    a ∈ keepFirstAux seen l ↔ a ∈ l ∧ a ∉ seen := by
  intro l
  induction l with
  | nil => intro seen a; simp [keepFirstAux]
  | cons b l ih =>
    intro seen a
    simp only [keepFirstAux]
    by_cases hb : b ∈ seen
    · rw [if_pos hb, ih]
      constructor
      · rintro ⟨h1, h2⟩; exact ⟨List.mem_cons_of_mem _ h1, h2⟩
      · rintro ⟨h1, h2⟩
        rcases List.mem_cons.mp h1 with rfl | h1
        · exact absurd hb h2
        · exact ⟨h1, h2⟩
    · rw [if_neg hb]
      simp only [List.mem_cons, ih, List.mem_cons]
      constructor
      · rintro (rfl | ⟨h1, h2⟩)
        · exact ⟨Or.inl rfl, hb⟩
        · exact ⟨Or.inr h1, fun hc => h2 (Or.inr hc)⟩
      · rintro ⟨rfl | h1, h2⟩
        · exact Or.inl rfl
        · by_cases hab : a = b
          · exact Or.inl hab
          · exact Or.inr ⟨h1, fun hc => (hc.elim hab h2)⟩

lemma keepFirstAux_nodup : ∀ (l seen : List String), (keepFirstAux seen l).Nodup := by
  intro l
  induction l with
  | nil => intro seen; simp [keepFirstAux]
  | cons a l ih =>
    intro seen
    simp only [keepFirstAux]
    by_cases ha : a ∈ seen
    · rw [if_pos ha]; exact ih seen
    · rw [if_neg ha]
      refine List.nodup_cons.mpr ⟨?_, ih (a :: seen)⟩
      intro hc
      exact ((mem_keepFirstAux _ _ _).mp hc).2 (List.mem_cons_self a seen)

lemma mem_keepFirst (l : List String) (a : String) : a ∈ keepFirst l ↔ a ∈ l := by
  rw [keepFirst, mem_keepFirstAux]
  simp

lemma keepFirst_nodup (l : List String) : (keepFirst l).Nodup :=
  keepFirstAux_nodup l []

/-! Association-list lemmas for the counter. -/

lemma lookupCounter_eq_none_iff : ∀ (c : List (String × Stats)) (k : String),
    lookupCounter c k = none ↔ k ∉ c.map Prod.fst := by
  intro c
  induction c with
  | nil => intro k; simp [lookupCounter]
  | cons p c ih =>
    intro k
    obtain ⟨k₀, v₀⟩ := p
    simp only [lookupCounter, List.map_cons, List.mem_cons]
    by_cases hk : k₀ = k
    · subst hk; simp
    · rw [if_neg hk, ih]
      constructor
      · intro h hc
        rcases hc with hc | hc
        · exact hk hc.symm
        · exact h hc
      · intro h hc
        exact h (Or.inr hc)

lemma lookupCounter_mem : ∀ (c : List (String × Stats)) (k : String) (v : Stats),
    lookupCounter c k = some v → (k, v) ∈ c := by
  intro c
  induction c with
  | nil => intro k v h; simp [lookupCounter] at h
  | cons p c ih =>
    intro k v h
    obtain ⟨k₀, v₀⟩ := p
    simp only [lookupCounter] at h
    by_cases hk : k₀ = k
    · rw [if_pos hk] at h
      subst hk
      obtain rfl : v₀ = v := by injection h
      exact List.mem_cons_self _ _
    · rw [if_neg hk] at h
      exact List.mem_cons_of_mem _ (ih k v h)

lemma mem_lookupCounter : ∀ (c : List (String × Stats)),
    (c.map Prod.fst).Nodup → ∀ (k : String) (v : Stats),
    (k, v) ∈ c → lookupCounter c k = some v := by
  intro c
  induction c with
  | nil => intro _ k v h; simp at h
  | cons p c ih =>
    intro hnd k v h
    obtain ⟨k₀, v₀⟩ := p
    simp only [List.map_cons, List.nodup_cons] at hnd
    rcases List.mem_cons.mp h with heq | hmem
    · injection heq with h1 h2
      subst h1; subst h2
      simp [lookupCounter]
    · have hk : k₀ ≠ k := by
        rintro rfl
        exact hnd.1 (List.mem_map_of_mem Prod.fst hmem)
      simp only [lookupCounter, if_neg hk]
      exact ih hnd.2 k v hmem

lemma lookupCounter_updateCounter_self : ∀ (c : List (String × Stats)) (k : String) (s : ℚ),
    lookupCounter (updateCounter c k s) k =
      some (match lookupCounter c k with
            | none => ⟨1, s⟩
            | some v => ⟨v.count + 1, v.total + s⟩) := by
  intro c
  induction c with
  | nil => intro k s; simp [updateCounter, lookupCounter]
  | cons p c ih =>
    intro k s
    obtain ⟨k₀, v₀⟩ := p
    by_cases hk : k₀ = k
    · subst hk
      simp [updateCounter, lookupCounter]
    · simp only [updateCounter, if_neg hk, lookupCounter]
      exact ih k s

lemma lookupCounter_updateCounter_ne : ∀ (c : List (String × Stats)) (k : String) (s : ℚ)
    (k₂ : String), k₂ ≠ k → lookupCounter (updateCounter c k s) k₂ = lookupCounter c k₂ := by
  intro c
  induction c with
  | nil =>
    intro k s k₂ hne
    simp only [updateCounter, lookupCounter]
    rw [if_neg (fun hc => hne hc.symm)]
  | cons p c ih =>
    intro k s k₂ hne
    obtain ⟨k₀, v₀⟩ := p
    by_cases hk : k₀ = k
    · subst hk
      simp only [updateCounter, if_pos rfl, lookupCounter]
      rw [if_neg (fun hc => hne hc.symm), if_neg (fun hc => hne hc.symm)]
    · simp only [updateCounter, if_neg hk, lookupCounter]
      by_cases hk₂ : k₀ = k₂
      · rw [if_pos hk₂, if_pos hk₂]
      · rw [if_neg hk₂, if_neg hk₂, ih k s k₂ hne]

lemma map_fst_updateCounter : ∀ (c : List (String × Stats)) (k : String) (s : ℚ),
    (updateCounter c k s).map Prod.fst =
      if k ∈ c.map Prod.fst then c.map Prod.fst else c.map Prod.fst ++ [k] := by
  intro c
  induction c with
  | nil => intro k s; simp [updateCounter]
  | cons p c ih =>
    intro k s
    obtain ⟨k₀, v₀⟩ := p
    by_cases hk : k₀ = k
    · subst hk
      simp [updateCounter]
    · simp only [updateCounter, if_neg hk, List.map_cons, List.mem_cons, ih]
      by_cases hmem : k ∈ c.map Prod.fst
      · rw [if_pos hmem, if_pos (Or.inr hmem)]
      · rw [if_neg hmem, if_neg ?_]
        · simp
        · rintro (hc | hc)
          · exact hk hc.symm
          · exact hmem hc

lemma lookup_foldl_updateCounter : ∀ (l : List (String × ℚ)) (c : List (String × Stats))
    (k : String),
    lookupCounter (l.foldl (fun c p => updateCounter c p.1 p.2) c) k =
      match lookupCounter c k with
      | some v => some ⟨v.count + labelCount k l, v.total + labelTotal k l⟩
      | none =>
        if labelCount k l = 0 then none else some ⟨labelCount k l, labelTotal k l⟩ := by
  intro l
  induction l with
  | nil =>
    intro c k
    simp only [List.foldl_nil, labelCount, labelTotal, List.filter_nil, List.length_nil,
      List.map_nil, List.sum_nil]
    cases h : lookupCounter c k with
    | none => simp
    | some v => cases v; simp
  | cons p l ih =>
    intro c k
    obtain ⟨k₀, s₀⟩ := p
    simp only [List.foldl_cons]
    rw [ih]
    by_cases hk : k₀ = k
    · subst hk
      have hcnt : labelCount k₀ ((k₀, s₀) :: l) = labelCount k₀ l + 1 := by
        simp [labelCount, List.filter_cons]
      have htot : labelTotal k₀ ((k₀, s₀) :: l) = s₀ + labelTotal k₀ l := by
        simp [labelTotal, List.filter_cons]
      rw [lookupCounter_updateCounter_self, hcnt, htot]
      cases h : lookupCounter c k₀ with
      | none =>
        dsimp only
        rw [if_neg (Nat.succ_ne_zero _)]
        have h1 : 1 + labelCount k₀ l = labelCount k₀ l + 1 := by omega
        rw [h1]
      | some v =>
        dsimp only
        have h1 : v.count + 1 + labelCount k₀ l = v.count + (labelCount k₀ l + 1) := by omega
        have h2 : v.total + s₀ + labelTotal k₀ l = v.total + (s₀ + labelTotal k₀ l) := by ring
        rw [h1, h2]
    · have hcnt : labelCount k ((k₀, s₀) :: l) = labelCount k l := by
        simp [labelCount, List.filter_cons, hk]
      have htot : labelTotal k ((k₀, s₀) :: l) = labelTotal k l := by
        simp [labelTotal, List.filter_cons, hk]
      rw [lookupCounter_updateCounter_ne _ _ _ _ (fun hc => hk hc.symm), hcnt, htot]

lemma map_fst_foldl_updateCounter : ∀ (l : List (String × ℚ)) (c : List (String × Stats)),
    (l.foldl (fun c p => updateCounter c p.1 p.2) c).map Prod.fst =
      c.map Prod.fst ++ keepFirstAux (c.map Prod.fst) (l.map Prod.fst) := by
  intro l
  induction l with
  | nil => intro c; simp [keepFirstAux]
  | cons p l ih =>
    intro c
    obtain ⟨k₀, s₀⟩ := p
    simp only [List.foldl_cons, List.map_cons, keepFirstAux]
    rw [ih, map_fst_updateCounter]
    by_cases hmem : k₀ ∈ c.map Prod.fst
    · rw [if_pos hmem, if_pos hmem]
    · rw [if_neg hmem, if_neg hmem,
        keepFirstAux_congr (l.map Prod.fst) (c.map Prod.fst ++ [k₀]) (k₀ :: c.map Prod.fst)
          (by intro a; simp [or_comm])]
      simp

lemma buildCounter_lookup (l : List (String × ℚ)) (k : String) :
    lookupCounter (buildCounter l) k =
      if labelCount k l = 0 then none else some ⟨labelCount k l, labelTotal k l⟩ := by
  rw [buildCounter, lookup_foldl_updateCounter]
  rfl

lemma buildCounter_keys (l : List (String × ℚ)) :
    (buildCounter l).map Prod.fst = keepFirst (l.map Prod.fst) := by
  rw [buildCounter, map_fst_foldl_updateCounter]
  rfl

lemma buildCounter_keys_nodup (l : List (String × ℚ)) :
    ((buildCounter l).map Prod.fst).Nodup := by
  rw [buildCounter_keys]; exact keepFirst_nodup _

/-- Every entry of the counter carries exactly the spec-side statistics of its label. -/
lemma buildCounter_entry (l : List (String × ℚ)) (k : String) (v : Stats)
    (h : (k, v) ∈ buildCounter l) :
    v = ⟨labelCount k l, labelTotal k l⟩ ∧ 0 < labelCount k l := by
  have hl := mem_lookupCounter _ (buildCounter_keys_nodup l) k v h
  rw [buildCounter_lookup] at hl
  by_cases h0 : labelCount k l = 0
  · rw [if_pos h0] at hl; cases hl
  · rw [if_neg h0] at hl
    injection hl with hv
    exact ⟨hv.symm, Nat.pos_of_ne_zero h0⟩

lemma statLe_refl (u : Stats) : statLe u u := Or.inr ⟨rfl, le_refl _⟩

lemma statLe_of_statLt {u v : Stats} (h : statLt u v) : statLe u v := by
  rcases h with h | ⟨h1, h2⟩
  · exact Or.inl h
  · exact Or.inr ⟨h1, le_of_lt h2⟩

lemma statLt_of_accLt_self {u v : Stats}
    (h : accLt (u.count : Int) (u.total / (u.count : ℚ)) v) : statLt u v := by
  rcases h with h | ⟨h1, h2⟩
  · left; exact_mod_cast h
  · right; exact ⟨by exact_mod_cast h1, h2⟩

lemma accLt_trans {bc : Int} {ba : ℚ} {u v : Stats} (h1 : accLt bc ba u) (h2 : statLt u v) :
    accLt bc ba v := by
  rcases h2 with h2 | ⟨h2a, h2b⟩
  · left
    rcases h1 with h1 | ⟨h1a, _⟩
    · exact lt_trans h1 (by exact_mod_cast h2)
    · rw [h1a]; exact_mod_cast h2
  · rcases h1 with h1 | ⟨h1a, h1b⟩
    · left; rw [← h2a]; exact h1
    · right
      refine ⟨by rw [h1a, h2a], ?_⟩
      have hu : u.total / (u.count : ℚ) < v.total / (v.count : ℚ) := h2b
      exact lt_trans h1b hu

lemma statLt_of_not_accLt {bc : Int} {ba : ℚ} {u v : Stats}
    (h1 : ¬ accLt bc ba u) (h2 : accLt bc ba v) : statLt u v := by
  rw [accLt] at h1 h2
  push_neg at h1
  obtain ⟨h1c, h1avg⟩ := h1
  rcases h2 with h2 | ⟨h2a, h2b⟩
  · left; exact_mod_cast lt_of_le_of_lt h1c h2
  · have hle : (u.count : Int) ≤ (v.count : Int) := h2a ▸ h1c
    rcases lt_or_eq_of_le hle with hlt | heq
    · left; exact_mod_cast hlt
    · right
      have hcnt : u.count = v.count := by exact_mod_cast heq
      have hba : u.total / (u.count : ℚ) ≤ ba := h1avg (by rw [heq, ← h2a])
      exact ⟨hcnt, lt_of_le_of_lt hba h2b⟩

lemma statLe_of_not_accLt_self {u v : Stats}
    (h : ¬ accLt (u.count : Int) (u.total / (u.count : ℚ)) v) : statLe v u := by
  rw [accLt] at h
  push_neg at h
  obtain ⟨h1, h2⟩ := h
  rcases lt_or_eq_of_le h1 with hlt | heq
  · left; exact_mod_cast hlt
  · right
    have hcnt : v.count = u.count := by exact_mod_cast heq
    exact ⟨hcnt, h2 (by exact_mod_cast heq.symm)⟩

/-- Full characterisation of the `getSmoothedEmotion` selection loop: either no
entry beats the initial best-so-far and the accumulator is returned unchanged,
or the loop returns the first entry that is a lexicographic maximum — every
earlier entry is strictly below it and every entry is at most it. -/
lemma emotionLoop_spec : ∀ (c : List (String × Stats)) (bn : Option String) (bc : Int) (ba : ℚ),
    (emotionLoop c (bn, bc, ba) = (bn, bc, ba) ∧ ∀ e ∈ c, ¬ accLt bc ba e.2) ∨
    (∃ pre kv post, c = pre ++ kv :: post ∧
      emotionLoop c (bn, bc, ba) =
        (some kv.1, (kv.2.count : Int), kv.2.total / (kv.2.count : ℚ)) ∧
      accLt bc ba kv.2 ∧ (∀ e ∈ pre, statLt e.2 kv.2) ∧ ∀ e ∈ c, statLe e.2 kv.2) := by
  intro c
  induction c with
  | nil => intro bn bc ba; left; exact ⟨rfl, by simp⟩
  | cons hd tl ih =>
    intro bn bc ba
    obtain ⟨k, v⟩ := hd
    by_cases hcond : accLt bc ba v
    · have hstep : emotionLoop ((k, v) :: tl) (bn, bc, ba) =
          emotionLoop tl (some k, (v.count : Int), v.total / (v.count : ℚ)) := by
        simp only [emotionLoop]
        exact if_pos hcond
      rcases ih (some k) (v.count : Int) (v.total / (v.count : ℚ)) with
        ⟨heq, hall⟩ | ⟨pre, kv, post, hsplit, heq, hacc, hpre, hall⟩
      · right
        refine ⟨[], (k, v), tl, rfl, by rw [hstep]; exact heq, hcond, by simp, ?_⟩
        intro e he
        rcases List.mem_cons.mp he with rfl | he
        · exact statLe_refl _
        · exact statLe_of_not_accLt_self (hall e he)
      · right
        refine ⟨(k, v) :: pre, kv, post, by simp [hsplit], by rw [hstep]; exact heq,
          accLt_trans hcond (statLt_of_accLt_self hacc), ?_, ?_⟩
        · intro e he
          rcases List.mem_cons.mp he with rfl | he
          · exact statLt_of_accLt_self hacc
          · exact hpre e he
        · intro e he
          rcases List.mem_cons.mp he with rfl | he
          · exact statLe_of_statLt (statLt_of_accLt_self hacc)
          · exact hall e he
    · have hstep : emotionLoop ((k, v) :: tl) (bn, bc, ba) = emotionLoop tl (bn, bc, ba) := by
        simp only [emotionLoop]
        exact if_neg hcond
      rcases ih bn bc ba with ⟨heq, hall⟩ | ⟨pre, kv, post, hsplit, heq, hacc, hpre, hall⟩
      · left
        refine ⟨by rw [hstep]; exact heq, ?_⟩
        intro e he
        rcases List.mem_cons.mp he with rfl | he
        · exact hcond
        · exact hall e he
      · right
        refine ⟨(k, v) :: pre, kv, post, by simp [hsplit], by rw [hstep]; exact heq, hacc, ?_, ?_⟩
        · intro e he
          rcases List.mem_cons.mp he with rfl | he
          · exact statLt_of_not_accLt hcond hacc
          · exact hpre e he
        · intro e he
          rcases List.mem_cons.mp he with rfl | he
          · exact statLe_of_statLt (statLt_of_not_accLt hcond hacc)
          · exact hall e he

/-- Full characterisation of the `getSmoothedGender` selection loop (count only). -/
lemma genderLoop_spec : ∀ (c : List (String × Stats)) (bg : Option String) (bc : Int),
    (genderLoop c (bg, bc) = (bg, bc) ∧ ∀ e ∈ c, ¬ bc < (e.2.count : Int)) ∨
    (∃ pre kv post, c = pre ++ kv :: post ∧
      genderLoop c (bg, bc) = (some kv.1, (kv.2.count : Int)) ∧
      bc < (kv.2.count : Int) ∧ (∀ e ∈ pre, e.2.count < kv.2.count) ∧
      ∀ e ∈ c, e.2.count ≤ kv.2.count) := by
  intro c
  induction c with
  | nil => intro bg bc; left; exact ⟨rfl, by simp⟩
  | cons hd tl ih =>
    intro bg bc
    obtain ⟨k, v⟩ := hd
    by_cases hcond : bc < (v.count : Int)
    · have hstep : genderLoop ((k, v) :: tl) (bg, bc) =
          genderLoop tl (some k, (v.count : Int)) := by
        simp only [genderLoop]
        exact if_pos hcond
      rcases ih (some k) (v.count : Int) with
        ⟨heq, hall⟩ | ⟨pre, kv, post, hsplit, heq, hacc, hpre, hall⟩
      · right
        refine ⟨[], (k, v), tl, rfl, by rw [hstep]; exact heq, hcond, by simp, ?_⟩
        intro e he
        rcases List.mem_cons.mp he with rfl | he
        · exact le_refl _
        · exact_mod_cast not_lt.mp (hall e he)
      · right
        have hvkv : v.count < kv.2.count := by exact_mod_cast hacc
        refine ⟨(k, v) :: pre, kv, post, by simp [hsplit], by rw [hstep]; exact heq,
          lt_trans hcond hacc, ?_, ?_⟩
        · intro e he
          rcases List.mem_cons.mp he with rfl | he
          · exact hvkv
          · exact hpre e he
        · intro e he
          rcases List.mem_cons.mp he with rfl | he
          · exact le_of_lt hvkv
          · exact hall e he
    · have hstep : genderLoop ((k, v) :: tl) (bg, bc) = genderLoop tl (bg, bc) := by
        simp only [genderLoop]
        exact if_neg hcond
      rcases ih bg bc with ⟨heq, hall⟩ | ⟨pre, kv, post, hsplit, heq, hacc, hpre, hall⟩
      · left
        refine ⟨by rw [hstep]; exact heq, ?_⟩
        intro e he
        rcases List.mem_cons.mp he with rfl | he
        · exact hcond
        · exact hall e he
      · right
        have hvkv : v.count < kv.2.count := by
          have h1 : (v.count : Int) ≤ bc := not_lt.mp hcond
          exact_mod_cast lt_of_le_of_lt h1 hacc
        refine ⟨(k, v) :: pre, kv, post, by simp [hsplit], by rw [hstep]; exact heq, hacc, ?_, ?_⟩
        · intro e he
          rcases List.mem_cons.mp he with rfl | he
          · exact hvkv
          · exact hpre e he
        · intro e he
          rcases List.mem_cons.mp he with rfl | he
          · exact le_of_lt hvkv
          · exact hall e he

/-! Lemmas about the sliding-window buffer. -/

lemma length_pushWithLimit {α : Type} (arr : List α) (item : α) (limit : Int) :
    (pushWithLimit arr item limit).length =
      if limit < (arr.length : Int) + 1 then arr.length else arr.length + 1 := by
  rw [pushWithLimit]
  by_cases h : limit < ((arr ++ [item]).length : Int)
  · rw [if_pos h, if_pos (by simpa using h)]
    simp [List.length_tail]
  · rw [if_neg h, if_neg (by simpa using h)]
    simp

lemma tail_append_of_ne_nil {α : Type} (l l₂ : List α) (h : l ≠ []) :
    (l ++ l₂).tail = l.tail ++ l₂ := by
  cases l with
  | nil => exact absurd rfl h
  | cons x l => rfl

lemma pushSeq_eq_drop {α : Type} (N : ℕ) : ∀ (items : List α),
    pushSeq (N : Int) items = items.drop (items.length - N) := by
  intro items
  induction items using List.reverseRecOn with
  | nil => simp [pushSeq]
  | append_singleton l x ih =>
    have hstep : pushSeq (N : Int) (l ++ [x]) = pushWithLimit (pushSeq (N : Int) l) x N := by
      simp [pushSeq, List.foldl_append]
    rw [hstep, ih, pushWithLimit]
    by_cases hN : l.length < N
    · have h0 : l.length - N = 0 := by omega
      have h1 : (l ++ [x]).length - N = 0 := by simp; omega
      have hcond : ¬ ((N : Int) < ((l ++ [x]).length : Int)) := by
        simp only [List.length_append, List.length_singleton]
        push_cast
        omega
      rw [h0, h1, List.drop_zero, List.drop_zero, if_neg hcond]
    · push_neg at hN
      have hlen : (l.drop (l.length - N)).length = N := by
        rw [List.length_drop]; omega
      have hcond2 : (N : Int) < ((l.drop (l.length - N) ++ [x]).length : Int) := by
        simp only [List.length_append, List.length_singleton, hlen]
        push_cast
        omega
      rw [if_pos hcond2]
      rcases Nat.eq_zero_or_pos N with h0 | hpos
      · subst h0
        have hd : l.drop (l.length - 0) = [] := by
          simp [List.drop_length]
        rw [hd, List.nil_append]
        have : (l ++ [x]).length - 0 = (l ++ [x]).length := by omega
        rw [this, List.drop_length]
        rfl
      · have hne : l.drop (l.length - N) ≠ [] := by
          intro hc
          rw [hc] at hlen
          simp at hlen
          omega
        rw [tail_append_of_ne_nil _ _ hne, List.tail_drop]
        have h2 : (l ++ [x]).length - N = l.length - N + 1 := by simp; omega
        rw [h2, List.drop_append_of_le_length (by omega)]

/-! Lemmas about `getSmoothedAge` and the stable sort of the emotion block. -/

lemma foldl_add_eq_sum : ∀ (l : List ℚ) (a : ℚ), l.foldl (· + ·) a = a + l.sum := by
  intro l
  induction l with
  | nil => intro a; simp
  | cons x l ih => intro a; simp [ih, add_assoc]

lemma sortDesc_head_spec : ∀ (l : List Candidate), l ≠ [] →
    ∃ (i : ℕ) (hi : i < l.length),
      (sortDesc l).head? = some (l.get ⟨i, hi⟩) ∧
      (∀ c ∈ l, candKey c ≤ candKey (l.get ⟨i, hi⟩)) ∧
      ∀ j (hj : j < l.length), j < i → candKey (l.get ⟨j, hj⟩) < candKey (l.get ⟨i, hi⟩) := by
  intro l
  induction l with
  | nil => intro h; exact absurd rfl h
  | cons x rest ih =>
    intro _
    cases rest with
    | nil =>
      refine ⟨0, by simp, by simp [sortDesc, insertDesc], ?_, ?_⟩
      · intro c hc
        rcases List.mem_cons.mp hc with rfl | hc
        · exact le_refl _
        · simp at hc
      · intro j hj hj0
        omega
    | cons y rest₂ =>
      obtain ⟨i', hi', hhead, hmax, hfirst⟩ := ih (by simp)
      have hsort : sortDesc (x :: y :: rest₂) = insertDesc x (sortDesc (y :: rest₂)) := rfl
      obtain ⟨top, t, hts⟩ : ∃ top t, sortDesc (y :: rest₂) = top :: t := by
        cases hs : sortDesc (y :: rest₂) with
        | nil => rw [hs] at hhead; simp at hhead
        | cons a b => exact ⟨a, b, rfl⟩
      have htop : top = (y :: rest₂).get ⟨i', hi'⟩ := by
        rw [hts] at hhead
        simpa using hhead
      by_cases hxy : candKey top ≤ candKey x
      · refine ⟨0, by simp, ?_, ?_, ?_⟩
        · rw [hsort, hts, insertDesc, if_pos hxy]
          rfl
        · intro c hc
          rcases List.mem_cons.mp hc with rfl | hc
          · exact le_refl _
          · exact le_trans (hmax c hc) (htop ▸ hxy)
        · intro j hj hj0
          omega
      · push_neg at hxy
        refine ⟨i' + 1, by simpa using Nat.succ_lt_succ hi', ?_, ?_, ?_⟩
        · rw [hsort, hts, insertDesc, if_neg (not_le.mpr hxy)]
          simp only [List.head?_cons, Option.some.injEq]
          rw [htop]
          rfl
        · intro c hc
          rcases List.mem_cons.mp hc with rfl | hc
          · exact le_of_lt (htop ▸ hxy)
          · exact hmax c hc
        · intro j hj hj0
          cases j with
          | zero => exact htop ▸ hxy
          | succ j' =>
            have hj' : j' < (y :: rest₂).length := by
              simp only [List.length_cons] at hj ⊢
              omega
            exact hfirst j' hj' (Nat.lt_of_succ_lt_succ hj0)

lemma buildCounter_ne_nil (l : List (String × ℚ)) (hl : l ≠ []) : buildCounter l ≠ [] := by
  intro hnil
  have h1 := buildCounter_keys l
  rw [hnil] at h1
  cases l with
  | nil => exact hl rfl
  | cons p l₂ =>
    rw [List.map_cons, keepFirst, keepFirstAux] at h1
    simp at h1

/-! The claim theorems. -/

/-- Claim C1: for every limit `N ≥ 1` and every sequence of `pushWithLimit`
calls with that limit starting from an empty buffer, the buffer length is at
most `N` after every call (i.e. after every prefix of the pushes), and after
`N + k` pushes the buffer holds exactly the last `N` pushed items in push order
(each insertion past capacity evicts exactly the oldest element). -/
theorem c1_sliding_window_fifo {α : Type} (N : ℕ) (hN : 1 ≤ N) (items : List α) :
    (∀ k : ℕ, (pushSeq (N : Int) (items.take k)).length ≤ N) ∧
    (∀ k : ℕ, items.length = N + k → pushSeq (N : Int) items = items.drop k) := by
  refine ⟨fun k => ?_, fun k hk => ?_⟩
  · rw [pushSeq_eq_drop, List.length_drop]
    omega
  · rw [pushSeq_eq_drop, hk]
    congr 1
    omega

/-- Witness for C1 at `N = 2` over the pushes `[1, 2, 3]`. -/
theorem c1_witness :
    (pushSeq ((2 : ℕ) : Int) (([1, 2, 3] : List ℚ).take 2)).length ≤ 2 ∧
    pushSeq ((2 : ℕ) : Int) ([1, 2, 3] : List ℚ) = [2, 3] := by
  refine ⟨(c1_sliding_window_fifo 2 (by norm_num) ([1, 2, 3] : List ℚ)).1 2, ?_⟩
  have h := (c1_sliding_window_fifo 2 (by norm_num) ([1, 2, 3] : List ℚ)).2 1 (by simp)
  simpa using h

/-- Claim C5: `getSmoothedAge` returns the arithmetic mean rounded to one
decimal place (`Math.round(mean * 10) / 10`) on a non-empty history, and `null`
on the empty history. -/
theorem c5_age_mean (h : List ℚ) :
    (h ≠ [] → getSmoothedAge h = some ((jsRound (meanQ h * 10) : ℚ) / 10)) ∧
    getSmoothedAge ([] : List ℚ) = none := by
  refine ⟨fun hne => ?_, rfl⟩
  rw [getSmoothedAge, if_neg (by simpa using hne)]
  rw [foldl_add_eq_sum, zero_add, meanQ]

/-- Witness for C5 on the age history `[30, 32, 31]` with mean `31`. -/
theorem c5_witness :
    getSmoothedAge ([30, 32, 31] : List ℚ) = some ((jsRound (meanQ [30, 32, 31] * 10) : ℚ) / 10) ∧
    getSmoothedAge ([30, 32, 31] : List ℚ) = some 31 := by
  refine ⟨(c5_age_mean [30, 32, 31]).1 (by simp), ?_⟩
  norm_num [getSmoothedAge, jsRound]

/-- Claim C6: a frame with no detected entity produces an empty display state
and leaves all three history buffers unchanged; a subsequent frame with a
detection therefore sees exactly the buffers accumulated before the gap. -/
theorem c6_no_detection_keeps_history (cfg : SmoothConfig) (bufs : HistoryBuffers) :
    detectStep cfg none bufs = (bufs, none) ∧
    ∀ f : FaceInput,
      (detectStep cfg (some f) ((detectStep cfg none bufs).1)).1 =
        (detectStep cfg (some f) bufs).1 :=
  ⟨rfl, fun _ => rfl⟩

/-- Claim C7: each aggregator returns its explicit "no result" value on the
empty history: `null`, `{gender: null, score: null}`, `null` respectively. -/
theorem c7_empty_history :
    getSmoothedEmotion [] = none ∧ getSmoothedGender [] = (none, none) ∧
    getSmoothedAge [] = none :=
  ⟨rfl, rfl, rfl⟩

/-- Claim C9 counterexample: `"toString"` is outside the eight known labels,
yet `map["toString"]` finds the truthy inherited `Object.prototype.toString`
and `||` returns it, so the input is NOT returned unchanged. -/
theorem c9_counterexample :
    "toString" ∉ knownEmotionLabels ∧
    translateEmotionName "toString" ≠ JsValue.str "toString" := by
  constructor
  · decide
  · decide

/-- Claim C9 as amended: `translateEmotionName` maps each of the eight known
labels to its fixed localized display string; a label outside that set naming a
built-in `Object.prototype` property returns the truthy inherited member rather
than the label; every other string is returned unchanged.  The function is
total over all strings with no error path. -/
theorem c9_translate_emotion_name :
    translateEmotionName "neutral" = .str "平静" ∧
    translateEmotionName "happy" = .str "高兴" ∧
    translateEmotionName "sad" = .str "伤心" ∧
    translateEmotionName "angry" = .str "生气" ∧
    translateEmotionName "surprise" = .str "惊讶" ∧
    translateEmotionName "fear" = .str "恐惧" ∧
    translateEmotionName "disgust" = .str "厌恶" ∧
    translateEmotionName "contempt" = .str "轻蔑" ∧
    (∀ s : String, s ∉ knownEmotionLabels → s ∈ objectPrototypeKeys →
      translateEmotionName s = .inherited s) ∧
    ∀ s : String, s ∉ knownEmotionLabels → s ∉ objectPrototypeKeys →
      translateEmotionName s = .str s := by
  have hneg : ∀ s : String, s ∉ knownEmotionLabels →
      ¬s = "neutral" ∧ ¬s = "happy" ∧ ¬s = "sad" ∧ ¬s = "angry" ∧ ¬s = "surprise" ∧
        ¬s = "fear" ∧ ¬s = "disgust" ∧ ¬s = "contempt" := by
    intro s hs
    rw [knownEmotionLabels] at hs
    simpa only [List.mem_cons, List.not_mem_nil, or_false, not_or] using hs
  refine ⟨rfl, rfl, rfl, rfl, rfl, rfl, rfl, rfl, fun s hs hp => ?_, fun s hs hp => ?_⟩
  · obtain ⟨h1, h2, h3, h4, h5, h6, h7, h8⟩ := hneg s hs
    rw [translateEmotionName, if_neg h1, if_neg h2, if_neg h3, if_neg h4, if_neg h5,
      if_neg h6, if_neg h7, if_neg h8, if_pos hp]
  · obtain ⟨h1, h2, h3, h4, h5, h6, h7, h8⟩ := hneg s hs
    rw [translateEmotionName, if_neg h1, if_neg h2, if_neg h3, if_neg h4, if_neg h5,
      if_neg h6, if_neg h7, if_neg h8, if_neg hp]

/-- Witness for C9 (amended): the unknown label `"confused"` passes through
unchanged, while `"hasOwnProperty"` hits the inherited prototype member. -/
theorem c9_witness :
    translateEmotionName "confused" = JsValue.str "confused" ∧
    translateEmotionName "hasOwnProperty" = JsValue.inherited "hasOwnProperty" := by
  constructor
  · exact c9_translate_emotion_name.2.2.2.2.2.2.2.2.2 "confused" (by decide) (by decide)
  · exact c9_translate_emotion_name.2.2.2.2.2.2.2.2.1 "hasOwnProperty" (by decide) (by decide)

/-- Claim C10: a single `pushWithLimit` call leaves the length unchanged when
`oldLength + 1 > limit` and increments it otherwise; with `limit ≤ 0` an empty
buffer stays empty; the buffer is never shrunk below its prior length; and when
the call evicts, it removes exactly the one front element. -/
theorem c10_push_length_policy {α : Type} (arr : List α) (item : α) (limit : Int) :
    ((pushWithLimit arr item limit).length =
      if limit < (arr.length : Int) + 1 then arr.length else arr.length + 1) ∧
    (limit ≤ 0 → pushWithLimit ([] : List α) item limit = []) ∧
    arr.length ≤ (pushWithLimit arr item limit).length ∧
    (limit < (arr.length : Int) + 1 →
      pushWithLimit arr item limit = (arr ++ [item]).drop 1) := by
  refine ⟨length_pushWithLimit arr item limit, fun h0 => ?_, ?_, fun hover => ?_⟩
  · rw [pushWithLimit, if_pos (by simpa using lt_of_le_of_lt h0 one_pos)]
    rfl
  · rw [length_pushWithLimit]
    by_cases h : limit < (arr.length : Int) + 1
    · rw [if_pos h]
    · rw [if_neg h]; omega
  · rw [pushWithLimit, if_pos (by simpa using hover), ← List.drop_one]

/-- Witness for C10: an over-capacity push keeps the length, and a push with
limit `0` on the empty buffer leaves it empty. -/
theorem c10_witness :
    (pushWithLimit ([1, 2] : List ℚ) 3 2).length = 2 ∧
    pushWithLimit ([] : List ℚ) 5 0 = [] := by
  refine ⟨?_, (c10_push_length_policy ([] : List ℚ) 5 0).2.1 (by norm_num)⟩
  have h := (c10_push_length_policy ([1, 2] : List ℚ) 3 2).1
  rw [h]
  norm_num

/-- Claim C3: in a frame with a detected entity whose candidate list carries
confidences, at most one emotion observation enters the history: the first
candidate attaining the maximal confidence (stable sort descending), pushed if
and only if its confidence reaches `minConfidence`; below the threshold the
buffer — and hence the smoothed value — is unchanged. -/
theorem c3_emotion_push_policy (cfg : SmoothConfig) (bufs : HistoryBuffers) (f : FaceInput)
    (cands : List Candidate) (hf : f.emotionArr = some cands)
    (hp : ∀ c ∈ cands, c.score.isSome = true) :
    (cands = [] → ((detectStep cfg (some f) bufs).1).emotion = bufs.emotion) ∧
    (cands ≠ [] → ∃ (i : ℕ) (hi : i < cands.length),
      (∀ c ∈ cands, candKey c ≤ candKey (cands.get ⟨i, hi⟩)) ∧
      (∀ j (hj : j < cands.length), j < i →
        candKey (cands.get ⟨j, hj⟩) < candKey (cands.get ⟨i, hi⟩)) ∧
      (cfg.minConfidence ≤ candKey (cands.get ⟨i, hi⟩) →
        ((detectStep cfg (some f) bufs).1).emotion =
          pushWithLimit bufs.emotion
            ⟨(cands.get ⟨i, hi⟩).emotion, candKey (cands.get ⟨i, hi⟩)⟩ cfg.windowSize) ∧
      (candKey (cands.get ⟨i, hi⟩) < cfg.minConfidence →
        ((detectStep cfg (some f) bufs).1).emotion = bufs.emotion ∧
        getSmoothedEmotion (((detectStep cfg (some f) bufs).1).emotion) =
          getSmoothedEmotion bufs.emotion)) := by
  have hred : ((detectStep cfg (some f) bufs).1).emotion = stepEmotion cfg f bufs.emotion := rfl
  constructor
  · intro hnil
    rw [hred, stepEmotion, hf, hnil]
    rfl
  · intro hne
    obtain ⟨i, hi, hhead, hmax, hfirst⟩ := sortDesc_head_spec cands hne
    refine ⟨i, hi, hmax, hfirst, fun hge => ?_, fun hlt => ?_⟩
    · rw [hred, stepEmotion, hf]
      simp only [hhead]
      rw [if_pos hge]
    · have hb : ((detectStep cfg (some f) bufs).1).emotion = bufs.emotion := by
        rw [hred, stepEmotion, hf]
        simp only [hhead]
        rw [if_neg (not_le.mpr hlt)]
      exact ⟨hb, by rw [hb]⟩

/-- Witness for C3: candidates `[("sad", 0.2), ("happy", 0.9)]` under
`minConfidence = 0.3`. -/
theorem c3_witness :
    ∃ (i : ℕ)
      (hi : i < ([⟨"sad", some (2/10)⟩, ⟨"happy", some (9/10)⟩] : List Candidate).length),
      (∀ c ∈ ([⟨"sad", some (2/10)⟩, ⟨"happy", some (9/10)⟩] : List Candidate),
        candKey c ≤ candKey (([⟨"sad", some (2/10)⟩, ⟨"happy", some (9/10)⟩] :
          List Candidate).get ⟨i, hi⟩)) ∧
      (∀ j (hj : j < ([⟨"sad", some (2/10)⟩, ⟨"happy", some (9/10)⟩] :
          List Candidate).length), j < i →
        candKey (([⟨"sad", some (2/10)⟩, ⟨"happy", some (9/10)⟩] : List Candidate).get ⟨j, hj⟩) <
          candKey (([⟨"sad", some (2/10)⟩, ⟨"happy", some (9/10)⟩] :
            List Candidate).get ⟨i, hi⟩)) ∧
      ((3/10 : ℚ) ≤ candKey (([⟨"sad", some (2/10)⟩, ⟨"happy", some (9/10)⟩] :
          List Candidate).get ⟨i, hi⟩) →
        ((detectStep ⟨1, 3/10⟩
            (some ⟨some [⟨"sad", some (2/10)⟩, ⟨"happy", some (9/10)⟩],
              none, none, none, none, none, none, none, none⟩)
            createHistoryBuffers).1).emotion =
          pushWithLimit createHistoryBuffers.emotion
            ⟨(([⟨"sad", some (2/10)⟩, ⟨"happy", some (9/10)⟩] :
                List Candidate).get ⟨i, hi⟩).emotion,
              candKey (([⟨"sad", some (2/10)⟩, ⟨"happy", some (9/10)⟩] :
                List Candidate).get ⟨i, hi⟩)⟩ 1) ∧
      (candKey (([⟨"sad", some (2/10)⟩, ⟨"happy", some (9/10)⟩] :
          List Candidate).get ⟨i, hi⟩) < (3/10 : ℚ) →
        ((detectStep ⟨1, 3/10⟩
            (some ⟨some [⟨"sad", some (2/10)⟩, ⟨"happy", some (9/10)⟩],
              none, none, none, none, none, none, none, none⟩)
            createHistoryBuffers).1).emotion = createHistoryBuffers.emotion ∧
        getSmoothedEmotion (((detectStep ⟨1, 3/10⟩
            (some ⟨some [⟨"sad", some (2/10)⟩, ⟨"happy", some (9/10)⟩],
              none, none, none, none, none, none, none, none⟩)
            createHistoryBuffers).1).emotion) =
          getSmoothedEmotion createHistoryBuffers.emotion) :=
  (c3_emotion_push_policy ⟨1, 3/10⟩ createHistoryBuffers
    ⟨some [⟨"sad", some (2/10)⟩, ⟨"happy", some (9/10)⟩],
      none, none, none, none, none, none, none, none⟩
    [⟨"sad", some (2/10)⟩, ⟨"happy", some (9/10)⟩] rfl
    (by intro c hc; rcases List.mem_cons.mp hc with rfl | hc
        · rfl
        · rcases List.mem_cons.mp hc with rfl | hc
          · rfl
          · simp at hc)).2 (by simp)

/-- Claim C8 counterexample: under `minConfidence = 0` an emotion candidate with
an absent score is treated as confidence `0 ≥ 0` and IS pushed into history, so
an absent optional confidence does not always skip the observation. -/
theorem c8_counterexample :
    ((detectStep ⟨1, 0⟩
        (some ⟨some [⟨"happy", none⟩], none, none, none, none, none, none, none, none⟩)
        createHistoryBuffers).1).emotion ≠ [] := by
  have hred : ((detectStep ⟨1, 0⟩
      (some ⟨some [⟨"happy", none⟩], none, none, none, none, none, none, none, none⟩)
      createHistoryBuffers).1).emotion =
      stepEmotion ⟨1, 0⟩
        ⟨some [⟨"happy", none⟩], none, none, none, none, none, none, none, none⟩ [] := rfl
  rw [hred, stepEmotion]
  norm_num [sortDesc, insertDesc, candKey, pushWithLimit]

/-- Claim C8 as amended: a gender observation without a numeric score is always
skipped; an absent emotion candidate array is skipped; and a top emotion
candidate with an absent score is treated as confidence `0`, hence skipped
whenever `minConfidence > 0` (with `minConfidence = 0` it is pushed — see the
counterexample). -/
theorem c8_missing_confidence_skips (cfg : SmoothConfig) (bufs : HistoryBuffers)
    (f : FaceInput) :
    (f.genderScore = none → ((detectStep cfg (some f) bufs).1).gender = bufs.gender) ∧
    (f.emotionArr = none → ((detectStep cfg (some f) bufs).1).emotion = bufs.emotion) ∧
    (∀ cands top, f.emotionArr = some cands → (sortDesc cands).head? = some top →
      top.score = none → 0 < cfg.minConfidence →
      ((detectStep cfg (some f) bufs).1).emotion = bufs.emotion) := by
  have hredg : ((detectStep cfg (some f) bufs).1).gender = stepGender cfg f bufs.gender := rfl
  have hrede : ((detectStep cfg (some f) bufs).1).emotion = stepEmotion cfg f bufs.emotion := rfl
  refine ⟨fun hg => ?_, fun he => ?_, fun cands top hc ht hs hmc => ?_⟩
  · rw [hredg, stepGender, hg]
    cases f.gender <;> rfl
  · rw [hrede, stepEmotion, he]
  · rw [hrede, stepEmotion, hc]
    simp only [ht]
    rw [if_neg]
    rw [candKey, hs]
    simpa using hmc

/-- Witness for C8 (amended): a frame with `genderScore` absent and a top
emotion candidate without score leaves both buffers empty under
`minConfidence = 0.3`. -/
theorem c8_witness :
    ((detectStep ⟨1, 3/10⟩
        (some ⟨some [⟨"x", none⟩], some "male", none, none, none, none, none, none, none⟩)
        createHistoryBuffers).1).gender = [] ∧
    ((detectStep ⟨1, 3/10⟩
        (some ⟨some [⟨"x", none⟩], some "male", none, none, none, none, none, none, none⟩)
        createHistoryBuffers).1).emotion = [] := by
  constructor
  · exact (c8_missing_confidence_skips ⟨1, 3/10⟩ createHistoryBuffers
      ⟨some [⟨"x", none⟩], some "male", none, none, none, none, none, none, none⟩).1 rfl
  · exact (c8_missing_confidence_skips ⟨1, 3/10⟩ createHistoryBuffers
      ⟨some [⟨"x", none⟩], some "male", none, none, none, none, none, none, none⟩).2.2
      [⟨"x", none⟩] ⟨"x", none⟩ rfl rfl rfl (by norm_num)

/-- Claim C2: on a non-empty history, `getSmoothedEmotion` returns the label
with the highest occurrence count, count ties resolved by higher average
confidence, double ties by first encounter in input order; its confidence is
`Math.round(average * 100)`.  (The model is a pure function of the history, so
the result is deterministic by construction.) -/
theorem c2_emotion_aggregator (h : List EmotionData) (hne : h ≠ []) :
    ∃ (w : String) (pre post : List String),
      getSmoothedEmotion h = some (w, jsRound (labelAvg w (emotionPairs h) * 100)) ∧
      w ∈ (emotionPairs h).map Prod.fst ∧
      0 < labelCount w (emotionPairs h) ∧
      (∀ k ∈ (emotionPairs h).map Prod.fst,
        labelCount k (emotionPairs h) < labelCount w (emotionPairs h) ∨
          (labelCount k (emotionPairs h) = labelCount w (emotionPairs h) ∧
            labelAvg k (emotionPairs h) ≤ labelAvg w (emotionPairs h))) ∧
      keepFirst ((emotionPairs h).map Prod.fst) = pre ++ w :: post ∧
      ∀ k ∈ pre,
        ¬(labelCount k (emotionPairs h) = labelCount w (emotionPairs h) ∧
          labelAvg k (emotionPairs h) = labelAvg w (emotionPairs h)) := by
  have hPne : emotionPairs h ≠ [] := by
    rw [emotionPairs]
    simpa using hne
  have hkeys : (buildCounter (emotionPairs h)).map Prod.fst =
      keepFirst ((emotionPairs h).map Prod.fst) := buildCounter_keys _
  have hnd : ((buildCounter (emotionPairs h)).map Prod.fst).Nodup := buildCounter_keys_nodup _
  rcases emotionLoop_spec (buildCounter (emotionPairs h)) none (-1) (-1) with
    ⟨_, hall⟩ | ⟨pre, kv, post, hsplit, hloop, _, hpre, hall⟩
  · exfalso
    obtain ⟨e, he⟩ := List.exists_mem_of_ne_nil _ (buildCounter_ne_nil _ hPne)
    refine hall e he (Or.inl ?_)
    have h0 : (0 : Int) ≤ (e.2.count : Int) := Int.ofNat_nonneg _
    omega
  · have hkv_mem : kv ∈ buildCounter (emotionPairs h) := by
      rw [hsplit]
      exact List.mem_append_right _ (List.mem_cons_self _ _)
    obtain ⟨hkv_stats, hkv_pos⟩ := buildCounter_entry _ kv.1 kv.2 hkv_mem
    have hcount : kv.2.count = labelCount kv.1 (emotionPairs h) := by rw [hkv_stats]
    have htotal : kv.2.total = labelTotal kv.1 (emotionPairs h) := by rw [hkv_stats]
    have havg : kv.2.total / (kv.2.count : ℚ) = labelAvg kv.1 (emotionPairs h) := by
      rw [hcount, htotal, labelAvg]
    have hout : getSmoothedEmotion h =
        some (kv.1, jsRound (labelAvg kv.1 (emotionPairs h) * 100)) := by
      rw [getSmoothedEmotion, if_neg (by simpa using hne), hloop]
      dsimp only
      rw [havg]
    have hmemw : kv.1 ∈ (emotionPairs h).map Prod.fst := by
      have h1 : kv.1 ∈ (buildCounter (emotionPairs h)).map Prod.fst :=
        List.mem_map_of_mem Prod.fst hkv_mem
      rw [hkeys, mem_keepFirst] at h1
      exact h1
    refine ⟨kv.1, pre.map Prod.fst, post.map Prod.fst, hout, hmemw, hkv_pos, ?_, ?_, ?_⟩
    · intro k hk
      have h1 : k ∈ (buildCounter (emotionPairs h)).map Prod.fst := by
        rw [hkeys, mem_keepFirst]
        exact hk
      obtain ⟨e, he, hek⟩ := List.mem_map.mp h1
      obtain ⟨he_stats, _⟩ := buildCounter_entry _ e.1 e.2 he
      have hle := hall e he
      rw [statLe] at hle
      subst hek
      rw [he_stats, hcount, htotal] at hle
      rcases hle with hle | ⟨hle1, hle2⟩
      · left
        simpa using hle
      · right
        refine ⟨by simpa using hle1, ?_⟩
        simp only [labelAvg]
        simpa [hcount, htotal] using hle2
    · rw [← hkeys, hsplit, List.map_append, List.map_cons]
    · intro k hk
      obtain ⟨e, he, hek⟩ := List.mem_map.mp hk
      have he_c : e ∈ buildCounter (emotionPairs h) := by
        rw [hsplit]
        exact List.mem_append_left _ he
      obtain ⟨he_stats, _⟩ := buildCounter_entry _ e.1 e.2 he_c
      have hlt := hpre e he
      rw [statLt] at hlt
      subst hek
      rw [he_stats, hcount, htotal] at hlt
      rintro ⟨hteq, htavg⟩
      rcases hlt with hlt | ⟨_, hlt⟩
      · exact absurd hteq (by simpa using Nat.ne_of_lt hlt)
      · refine absurd htavg (ne_of_lt ?_)
        simp only [labelAvg]
        simpa [hcount, htotal] using hlt

/-- Witness for C2 on the history `[("happy", 0.9), ("happy", 0.8), ("sad", 0.95)]`,
whose winner is `"happy"` with confidence `85`. -/
theorem c2_witness :
    (∃ (w : String) (pre post : List String),
      getSmoothedEmotion [⟨"happy", 9/10⟩, ⟨"happy", 8/10⟩, ⟨"sad", 19/20⟩] =
        some (w, jsRound (labelAvg w
          (emotionPairs [⟨"happy", 9/10⟩, ⟨"happy", 8/10⟩, ⟨"sad", 19/20⟩]) * 100)) ∧
      w ∈ (emotionPairs [⟨"happy", 9/10⟩, ⟨"happy", 8/10⟩, ⟨"sad", 19/20⟩]).map Prod.fst ∧
      0 < labelCount w (emotionPairs [⟨"happy", 9/10⟩, ⟨"happy", 8/10⟩, ⟨"sad", 19/20⟩]) ∧
      (∀ k ∈ (emotionPairs [⟨"happy", 9/10⟩, ⟨"happy", 8/10⟩, ⟨"sad", 19/20⟩]).map Prod.fst,
        labelCount k (emotionPairs [⟨"happy", 9/10⟩, ⟨"happy", 8/10⟩, ⟨"sad", 19/20⟩]) <
            labelCount w (emotionPairs [⟨"happy", 9/10⟩, ⟨"happy", 8/10⟩, ⟨"sad", 19/20⟩]) ∨
          (labelCount k (emotionPairs [⟨"happy", 9/10⟩, ⟨"happy", 8/10⟩, ⟨"sad", 19/20⟩]) =
              labelCount w (emotionPairs [⟨"happy", 9/10⟩, ⟨"happy", 8/10⟩, ⟨"sad", 19/20⟩]) ∧
            labelAvg k (emotionPairs [⟨"happy", 9/10⟩, ⟨"happy", 8/10⟩, ⟨"sad", 19/20⟩]) ≤
              labelAvg w (emotionPairs [⟨"happy", 9/10⟩, ⟨"happy", 8/10⟩, ⟨"sad", 19/20⟩]))) ∧
      keepFirst ((emotionPairs [⟨"happy", 9/10⟩, ⟨"happy", 8/10⟩, ⟨"sad", 19/20⟩]).map
        Prod.fst) = pre ++ w :: post ∧
      ∀ k ∈ pre,
        ¬(labelCount k (emotionPairs [⟨"happy", 9/10⟩, ⟨"happy", 8/10⟩, ⟨"sad", 19/20⟩]) =
            labelCount w (emotionPairs [⟨"happy", 9/10⟩, ⟨"happy", 8/10⟩, ⟨"sad", 19/20⟩]) ∧
          labelAvg k (emotionPairs [⟨"happy", 9/10⟩, ⟨"happy", 8/10⟩, ⟨"sad", 19/20⟩]) =
            labelAvg w (emotionPairs [⟨"happy", 9/10⟩, ⟨"happy", 8/10⟩, ⟨"sad", 19/20⟩]))) ∧
    getSmoothedEmotion [⟨"happy", 9/10⟩, ⟨"happy", 8/10⟩, ⟨"sad", 19/20⟩] =
      some ("happy", 85) := by
  constructor
  · exact c2_emotion_aggregator [⟨"happy", 9/10⟩, ⟨"happy", 8/10⟩, ⟨"sad", 19/20⟩] (by simp)
  · norm_num [getSmoothedEmotion, emotionPairs, buildCounter, updateCounter, emotionLoop,
      jsRound]

/-- Claim C4 counterexample: on the history `[("", 0.5)]` the winning label is
the empty string, and the returned score is `null` rather than
`round(average * 100) = 50`, because `bestGender ? ... : undefined` treats the
empty-string winner as falsy. -/
theorem c4_counterexample :
    getSmoothedGender [⟨"", 1/2⟩] = (some "", none) ∧
    (getSmoothedGender [⟨"", 1/2⟩]).2 ≠
      some (jsRound (labelAvg "" (genderPairs [⟨"", 1/2⟩]) * 100)) := by
  have h : getSmoothedGender [⟨"", 1/2⟩] = (some "", none) := by
    norm_num [getSmoothedGender, genderPairs, buildCounter, updateCounter, genderLoop,
      lookupCounter]
  refine ⟨h, ?_⟩
  rw [h]
  simp

/-- Claim C4 as amended: on a non-empty history, `getSmoothedGender` selects the
winner by highest occurrence count only (count ties resolved by first encounter
in input order), and returns score `round(winner's average confidence * 100)` —
except that a winning empty-string label yields score `null` (JS truthiness on
the winner). -/
theorem c4_gender_aggregator (h : List GenderData) (hne : h ≠ []) :
    ∃ (w : String) (pre post : List String),
      (getSmoothedGender h).1 = some w ∧
      (getSmoothedGender h).2 =
        (if w = "" then none else some (jsRound (labelAvg w (genderPairs h) * 100))) ∧
      w ∈ (genderPairs h).map Prod.fst ∧
      0 < labelCount w (genderPairs h) ∧
      (∀ k ∈ (genderPairs h).map Prod.fst,
        labelCount k (genderPairs h) ≤ labelCount w (genderPairs h)) ∧
      keepFirst ((genderPairs h).map Prod.fst) = pre ++ w :: post ∧
      ∀ k ∈ pre, labelCount k (genderPairs h) < labelCount w (genderPairs h) := by
  have hPne : genderPairs h ≠ [] := by
    rw [genderPairs]
    simpa using hne
  have hkeys : (buildCounter (genderPairs h)).map Prod.fst =
      keepFirst ((genderPairs h).map Prod.fst) := buildCounter_keys _
  have hnd : ((buildCounter (genderPairs h)).map Prod.fst).Nodup := buildCounter_keys_nodup _
  rcases genderLoop_spec (buildCounter (genderPairs h)) none (-1) with
    ⟨_, hall⟩ | ⟨pre, kv, post, hsplit, hloop, _, hpre, hall⟩
  · exfalso
    obtain ⟨e, he⟩ := List.exists_mem_of_ne_nil _ (buildCounter_ne_nil _ hPne)
    refine hall e he ?_
    have h0 : (0 : Int) ≤ (e.2.count : Int) := Int.ofNat_nonneg _
    omega
  · have hkv_mem : kv ∈ buildCounter (genderPairs h) := by
      rw [hsplit]
      exact List.mem_append_right _ (List.mem_cons_self _ _)
    obtain ⟨hkv_stats, hkv_pos⟩ := buildCounter_entry _ kv.1 kv.2 hkv_mem
    have hcount : kv.2.count = labelCount kv.1 (genderPairs h) := by rw [hkv_stats]
    have htotal : kv.2.total = labelTotal kv.1 (genderPairs h) := by rw [hkv_stats]
    have hlook : lookupCounter (buildCounter (genderPairs h)) kv.1 = some kv.2 :=
      mem_lookupCounter _ hnd kv.1 kv.2 hkv_mem
    have hout : getSmoothedGender h =
        (some kv.1,
          if kv.1 = "" then none
          else some (jsRound (labelAvg kv.1 (genderPairs h) * 100))) := by
      rw [getSmoothedGender, if_neg (by simpa using hne)]
      dsimp only
      rw [hloop]
      dsimp only
      by_cases hw : kv.1 = ""
      · rw [if_pos hw, if_pos hw]
        rfl
      · rw [if_neg hw, if_neg hw, hlook]
        dsimp only [Option.map]
        rw [hcount, htotal, labelAvg]
    have hmemw : kv.1 ∈ (genderPairs h).map Prod.fst := by
      have h1 : kv.1 ∈ (buildCounter (genderPairs h)).map Prod.fst :=
        List.mem_map_of_mem Prod.fst hkv_mem
      rw [hkeys, mem_keepFirst] at h1
      exact h1
    refine ⟨kv.1, pre.map Prod.fst, post.map Prod.fst, by rw [hout], by rw [hout], hmemw,
      hkv_pos, ?_, ?_, ?_⟩
    · intro k hk
      have h1 : k ∈ (buildCounter (genderPairs h)).map Prod.fst := by
        rw [hkeys, mem_keepFirst]
        exact hk
      obtain ⟨e, he, hek⟩ := List.mem_map.mp h1
      obtain ⟨he_stats, _⟩ := buildCounter_entry _ e.1 e.2 he
      have hle := hall e he
      subst hek
      rw [he_stats, hcount] at hle
      simpa using hle
    · rw [← hkeys, hsplit, List.map_append, List.map_cons]
    · intro k hk
      obtain ⟨e, he, hek⟩ := List.mem_map.mp hk
      have he_c : e ∈ buildCounter (genderPairs h) := by
        rw [hsplit]
        exact List.mem_append_left _ he
      obtain ⟨he_stats, _⟩ := buildCounter_entry _ e.1 e.2 he_c
      have hlt := hpre e he
      subst hek
      rw [he_stats, hcount] at hlt
      simpa using hlt

/-- Witness for C4 (amended) on `[("male", 0.6), ("female", 0.9), ("female", 0.7)]`:
winner `"female"` by count alone with score `80`. -/
theorem c4_witness :
    (∃ (w : String) (pre post : List String),
      (getSmoothedGender [⟨"male", 6/10⟩, ⟨"female", 9/10⟩, ⟨"female", 7/10⟩]).1 = some w ∧
      (getSmoothedGender [⟨"male", 6/10⟩, ⟨"female", 9/10⟩, ⟨"female", 7/10⟩]).2 =
        (if w = "" then none
         else some (jsRound (labelAvg w
           (genderPairs [⟨"male", 6/10⟩, ⟨"female", 9/10⟩, ⟨"female", 7/10⟩]) * 100))) ∧
      w ∈ (genderPairs [⟨"male", 6/10⟩, ⟨"female", 9/10⟩, ⟨"female", 7/10⟩]).map Prod.fst ∧
      0 < labelCount w (genderPairs [⟨"male", 6/10⟩, ⟨"female", 9/10⟩, ⟨"female", 7/10⟩]) ∧
      (∀ k ∈ (genderPairs [⟨"male", 6/10⟩, ⟨"female", 9/10⟩, ⟨"female", 7/10⟩]).map Prod.fst,
        labelCount k (genderPairs [⟨"male", 6/10⟩, ⟨"female", 9/10⟩, ⟨"female", 7/10⟩]) ≤
          labelCount w (genderPairs [⟨"male", 6/10⟩, ⟨"female", 9/10⟩, ⟨"female", 7/10⟩])) ∧
      keepFirst ((genderPairs [⟨"male", 6/10⟩, ⟨"female", 9/10⟩, ⟨"female", 7/10⟩]).map
        Prod.fst) = pre ++ w :: post ∧
      ∀ k ∈ pre,
        labelCount k (genderPairs [⟨"male", 6/10⟩, ⟨"female", 9/10⟩, ⟨"female", 7/10⟩]) <
          labelCount w (genderPairs [⟨"male", 6/10⟩, ⟨"female", 9/10⟩, ⟨"female", 7/10⟩])) ∧
    getSmoothedGender [⟨"male", 6/10⟩, ⟨"female", 9/10⟩, ⟨"female", 7/10⟩] =
      (some "female", some 80) := by
  constructor
  · exact c4_gender_aggregator [⟨"male", 6/10⟩, ⟨"female", 9/10⟩, ⟨"female", 7/10⟩] (by simp)
  · norm_num [getSmoothedGender, genderPairs, buildCounter, updateCounter, genderLoop,
      lookupCounter, jsRound]
    refine ⟨⟨2, 8/5⟩, ⟨by decide, ?_⟩, by norm_num⟩
    rw [if_neg (by decide)]

end FaceRec
